import Mathlib

/-!
Verification of the job-tracking core of the YouTube downloader web app
(`app.py`) against its specification.  The Python source is shallowly
embedded: the mutable global dict `download_progress` becomes an explicit
association-list registry threaded through the functions, the background
worker (`download_video` together with its nested `progress_hook`) becomes a
function from the sequence of collaborator progress events to a final
registry, and Python floats are modelled as rationals.  Collaborator I/O
(yt-dlp itself, Flask request parsing, the file system) is outside the
model; what is modelled is exactly the state manipulation performed by the
source.
-/

/-- A CPython float as stored in a job's `progress` field: a finite value
(idealized as an exact rational) or one of the non-finite values `inf`,
`-inf`, `nan`, all of which `float(...)` can produce and the program will
happily store. -/
inductive PyFloat where
  | fin : ℚ → PyFloat
  | inf : PyFloat
  | ninf : PyFloat
  | nan : PyFloat
deriving DecidableEq

/-- `progress` holds a finite value within `[lo, hi]` (a non-finite float
satisfies no bound). -/
def progressInRange : PyFloat → Prop
  | PyFloat.fin v => 0 ≤ v ∧ v ≤ 100
  | _ => False

/-- One job record, mirroring the dict
`{'status': ..., 'progress': ..., 'filename': ...}` stored in
`download_progress`.  The `error` key is absent until the worker's `except`
branch writes it, hence `Option`. -/
structure Job where
  status : String
  progress : PyFloat
  filename : String
  error : Option String
deriving DecidableEq

/-- The global `download_progress` dict, as an association list from
download id to job record. -/
abbrev Registry := List (String × Job)

/-- Dict lookup `download_progress.get(id)`. -/
def regGet : Registry → String → Option Job
  | [], _ => none
  | (k, v) :: rest, id => if k = id then some v else regGet rest id

/-- Dict assignment `download_progress[id] = j` (replace if present,
insert otherwise). -/
def regSet : Registry → String → Job → Registry
  | [], id, j => [(id, j)]
  | (k, v) :: rest, id, j =>
    if k = id then (id, j) :: rest else (k, v) :: regSet rest id j

/-- One collaborator progress event, mirroring the dict `d` handed to
`progress_hook` by yt-dlp: keys `status`, and optionally
`downloaded_bytes`, `total_bytes`, `_percent_str`, `filename`.
A numeric key holding Python `None` is modelled as absent, since the
source only distinguishes these through truthiness. -/
structure Event where
  status : String
  downloaded_bytes : Option ℚ
  total_bytes : Option ℚ
  percent_str : Option String
  filename : Option String
deriving DecidableEq

/-- `'%'`-stripping, i.e. `s.replace('%', '')` (removes every `%`). -/
def stripPercent (s : String) : String :=
  String.mk (s.toList.filter (fun c => c ≠ '%'))

/-- Numeric value of a decimal digit character. -/
def digitVal (c : Char) : Nat := c.toNat - 48

/-- Value of a list of decimal digit characters, most significant first. -/
def digitsVal (cs : List Char) : Nat :=
  cs.foldl (fun a c => 10 * a + digitVal c) 0

/-- Split a character list at every `'.'`. -/
def splitDot : List Char → List (List Char)
  | [] => [[]]
  | c :: cs =>
    match splitDot cs with
    | [] => [[]]
    | g :: gs => if c = '.' then [] :: g :: gs else (c :: g) :: gs

/-- ASCII whitespace as accepted around a CPython `float(...)` argument
(`' '`, `\t`, `\n`, `\v`, `\f`, `\r` and the `\x1c`-`\x1f` separators,
which are Unicode whitespace for `str`). -/
def isPySpace (c : Char) : Bool :=
  c = ' ' || c = '\t' || c = '\n' || c = '\r' || c = '\x0b' || c = '\x0c' ||
    c = '\x1c' || c = '\x1d' || c = '\x1e' || c = '\x1f'

/-- Strip leading and trailing whitespace, as `float(...)` does. -/
def stripSpaces (cs : List Char) : List Char :=
  ((cs.dropWhile isPySpace).reverse.dropWhile isPySpace).reverse

/-- Continuation of a digit group after a digit: digits with single
underscores allowed between digits (`digit (['_'] digit)*`). -/
def digitsU : List Char → Bool
  | [] => true
  | ['_'] => false
  | '_' :: c :: cs => c.isDigit && digitsU cs
  | c :: cs => c.isDigit && digitsU cs

/-- A CPython `digitpart`: nonempty, starts and ends with a digit, single
underscores only between digits. -/
def digitGroup : List Char → Bool
  | [] => false
  | c :: rest => c.isDigit && digitsU rest

/-- Split at the first `e`/`E` (mantissa, optional exponent part). -/
def splitExp : List Char → List Char × Option (List Char)
  | [] => ([], none)
  | c :: cs =>
    if c = 'e' ∨ c = 'E' then ([], some cs)
    else
      match splitExp cs with
      | (m, ex) => (c :: m, ex)

/-- Case-insensitive match of `cs` against a fixed lowercase-letter
pattern. -/
def matchesIC : List Char → List Char → Bool
  | [], [] => true
  | c :: cs, p :: ps => (c = p || c.toNat = p.toNat - 32) && matchesIC cs ps
  | _, _ => false

/-- The underscores of a digit group removed, for valuation. -/
def unscore (cs : List Char) : List Char := cs.filter (fun c => c ≠ '_')

/-- Model of CPython `float(s)` on ASCII strings: surrounding whitespace
stripped, optional sign, then case-insensitively `inf`/`infinity`/`nan`,
or a decimal mantissa (underscore-grouped digit parts, at least one digit,
optional `.`) with an optional signed exponent.  Finite values are
idealized as exact rationals (no double rounding and no overflow
saturation to `inf`); non-ASCII digit and space forms, which CPython also
maps, are outside the model.  Returns `none` exactly where `float(s)`
raises `ValueError`. -/
def parseFloat (s : String) : Option PyFloat :=
  let cs := stripSpaces s.toList
  let signBody : Bool × List Char :=
    match cs with
    | '-' :: r => (true, r)
    | '+' :: r => (false, r)
    | r => (false, r)
  let neg := signBody.fst
  let body := signBody.snd
  if matchesIC body ['i', 'n', 'f'] ||
      matchesIC body ['i', 'n', 'f', 'i', 'n', 'i', 't', 'y'] then
    some (if neg then PyFloat.ninf else PyFloat.inf)
  else if matchesIC body ['n', 'a', 'n'] then
    some PyFloat.nan
  else
    let se := splitExp body
    let mag : Option ℚ :=
      match splitDot se.fst with
      | [i] => if digitGroup i then some ((digitsVal (unscore i) : ℚ)) else none
      | [i, f] =>
        if (!i.isEmpty || !f.isEmpty) && (i.isEmpty || digitGroup i) &&
            (f.isEmpty || digitGroup f) then
          some ((digitsVal (unscore i) : ℚ) +
            (digitsVal (unscore f) : ℚ) / (10 : ℚ) ^ (unscore f).length)
        else none
      | _ => none
    match mag, se.snd with
    | some v, none => some (PyFloat.fin (if neg then -v else v))
    | some v, some ex =>
      let esignBody : Bool × List Char :=
        match ex with
        | '-' :: r => (true, r)
        | '+' :: r => (false, r)
        | r => (false, r)
      if digitGroup esignBody.snd then
        let k := digitsVal (unscore esignBody.snd)
        let scaled := if esignBody.fst then v / (10 : ℚ) ^ k else v * (10 : ℚ) ^ k
        some (PyFloat.fin (if neg then -scaled else scaled))
      else none
    | none, _ => none

/-- Round half to even on ℚ, the rounding Python's `round` uses. -/
def roundHalfEven (x : ℚ) : ℤ :=
  let f : ℤ := ⌊x⌋
  let r : ℚ := x - (f : ℚ)
  if r < 1 / 2 then f
  else if 1 / 2 < r then f + 1
  else if 2 ∣ f then f else f + 1

/-- Python `round(x, 1)`: round to one decimal place, half to even
(binary-float representation error is abstracted away: the model rounds
the exact rational). -/
def pyRound1 (x : ℚ) : ℚ := ((roundHalfEven (10 * x) : ℚ)) / 10

/-- `os.path.basename` (POSIX): the part after the last `/`. -/
def basename (s : String) : String :=
  String.mk (s.toList.foldl (fun acc c => if c = '/' then [] else acc ++ [c]) [])

/-- The `elif '_percent_str' in d:` arm of `progress_hook`:
strip `%`, `float(...)` inside `try`, and on `ValueError` silently `pass`.
Returns the (possibly) updated record; this arm never raises. -/
def percentArm (d : Event) (j : Job) : Job :=
  match d.percent_str with
  | some s =>
    match parseFloat (stripPercent s) with
    | some v => { j with progress := v }
    | none => j
  | none => j

/-- The nested `progress_hook(d)` of `download_video`, acting on the job
record it owns.  Returns the record after the hook's assignments together
with the message of the exception the hook raises, if any (a `KeyError`
from a direct `d[...]` access on a missing key; Python renders
`str(KeyError('k'))` as `"'k'"`).  Mirrors the source's branch structure:
the byte-ratio branch is selected on presence of a truthy `total_bytes`
alone, and in the `finished` branch `status` and `progress` are assigned
before `d['filename']` is evaluated. -/
def progress_hook (d : Event) (j : Job) : Job × Option String :=
  if d.status = "downloading" then
    match d.total_bytes with
    | some t =>
      if t ≠ 0 then
        match d.downloaded_bytes with
        | some db => ({ j with progress := PyFloat.fin (pyRound1 (db / t * 100)) }, none)
        | none => (j, some "'downloaded_bytes'")
      else (percentArm d j, none)
    | none => (percentArm d j, none)
  else if d.status = "finished" then
    match d.filename with
    | some fn =>
      ({ j with status := "completed", progress := PyFloat.fin 100, filename := basename fn },
        none)
    | none =>
      ({ j with status := "completed", progress := PyFloat.fin 100 }, some "'filename'")
  else (j, none)

/-- The record `download_video` installs first:
`{'status': 'downloading', 'progress': 0, 'filename': ''}`. -/
def workerInit : Job := ⟨"downloading", PyFloat.fin 0, "", none⟩

/-- The worker's interaction with the collaborator for one job: the
progress events yt-dlp delivers to the hook, plus the message of the
exception the collaborator raises after those events, if any
(`fetch`/`download` "may raise at any point"). -/
structure WorkerRun where
  events : List Event
  raised : Option String
deriving DecidableEq

/-- Deliver the events to `progress_hook` in order, updating the job's
registry entry after each hook invocation; stop at the first exception a
hook raises and report its message.  (The `none` lookup branch is
unreachable in `download_video`, which installs the record before any
event arrives; it mirrors the `KeyError` Python would raise there.) -/
def runEvents (id : String) : Registry → List Event → Registry × Option String
  | reg, [] => (reg, none)
  | reg, e :: es =>
    match regGet reg id with
    | some j =>
      let step := progress_hook e j
      let reg1 := regSet reg id step.fst
      match step.snd with
      | none => runEvents id reg1 es
      | some m => (reg1, some m)
    | none => (reg, some ("'" ++ id ++ "'"))

/-- Every registry state the event loop passes through (one snapshot per
delivered event), in order.  Used to express properties of all
poller-observable intermediate states. -/
def runEventsTrace (id : String) : Registry → List Event → List Registry
  | _, [] => []
  | reg, e :: es =>
    match regGet reg id with
    | some j =>
      let step := progress_hook e j
      let reg1 := regSet reg id step.fst
      match step.snd with
      | none => reg1 :: runEventsTrace id reg1 es
      | some _ => [reg1]
    | none => []

/-- The `except` branch of `download_video`:
`download_progress[id]['status'] = 'error'; download_progress[id]['error'] = str(e)`.
(The record always exists when this runs, since installing it is the `try`
block's first statement; the `none` branch is unreachable.) -/
def errorSet (reg : Registry) (id : String) (msg : String) : Registry :=
  match regGet reg id with
  | some j => regSet reg id { j with status := "error", error := some msg }
  | none => reg

/-- Quality token to yt-dlp format-selection expression, lines 40-45 of
the source. -/
def format_selector (quality : String) : String :=
  if quality = "best" then "best[ext=mp4]"
  else if quality = "worst" then "worst[ext=mp4]"
  else "best[height<=" ++ quality ++ "][ext=mp4]"

/-- The background worker `download_video(url, quality, download_id)`:
install the initial record, run the collaborator delivering events to the
hook, and on any exception (from a hook or from the collaborator) record
`status='error'` and the message.  A total function: no exception escapes.
`url` and the computed selector only parameterize the external collaborator
call and do not influence the registry beyond the events it delivers. -/
def download_video (url quality id : String) (run : WorkerRun) (reg : Registry) :
    Registry :=
  let _fmt := format_selector quality
  let _u := url
  let reg1 := regSet reg id workerInit
  let res := runEvents id reg1 run.events
  match res.snd with
  | some m => errorSet res.fst id m
  | none =>
    match run.raised with
    | some m => errorSet res.fst id m
    | none => res.fst

/-- All registry states observable by a poller over one worker's lifetime:
after the initial record is installed, after each delivered event, and
after the worker returns. -/
def workerStates (url quality id : String) (run : WorkerRun) (reg : Registry) :
    List Registry :=
  let reg1 := regSet reg id workerInit
  (reg1 :: runEventsTrace id reg1 run.events) ++ [download_video url quality id run reg]

/-- Decimal digits of `n`, mirroring core `Nat.toDigitsCore` at base 10
(fuel-driven, one digit consumed per step). -/
def natDigitsAux : Nat → Nat → List Char → List Char
  | 0, _, acc => acc
  | fuel + 1, n, acc =>
    let d := Nat.digitChar (n % 10)
    let rest := n / 10
    if rest = 0 then d :: acc else natDigitsAux fuel rest (d :: acc)

/-- Model of Python `str` on the nonnegative integer `int(time.time()*1000)`:
decimal notation. -/
def natToString (n : Nat) : String := String.mk (natDigitsAux (n + 1) n [])

/-- The JSON body of the `/download` request: `url` and `quality` keys,
each possibly absent. -/
structure DownloadRequest where
  url : Option String
  quality : Option String

/-- What the `/download` handler produces: the HTTP response (either an
error body with status 400, or the `download_id` of a 200 response), the
`(url, quality, download_id)` argument triple handed to the background
thread if one was started, and the registry as the handler leaves it. -/
structure DownloadOutcome where
  response : Sum (String × Nat) String
  spawned : Option (String × String × String)
  registry : Registry

/-- The `/download` handler.  `now_ms` is `int(time.time() * 1000)` at the
moment of the request.  The handler validates the url (Python falsiness:
absent or empty), defaults `quality` to `"best"`, builds the id, starts
the detached worker thread and returns — it never touches
`download_progress` itself, so the registry passes through unchanged. -/
def download (req : DownloadRequest) (now_ms : Nat) (reg : Registry) :
    DownloadOutcome :=
  match req.url with
  | none => ⟨Sum.inl ("URL is required", 400), none, reg⟩
  | some u =>
    if u = "" then ⟨Sum.inl ("URL is required", 400), none, reg⟩
    else
      let quality := req.quality.getD "best"
      let download_id := natToString now_ms
      ⟨Sum.inr download_id, some (u, quality, download_id), reg⟩

/-- The JSON body served by `/progress/<id>`: `status` always, the other
keys only when present in the stored dict (`not_found` responses carry
only `status`). -/
structure ProgressView where
  status : String
  progress : Option PyFloat
  filename : Option String
  error : Option String
deriving DecidableEq

/-- The stored record as served by `/progress/<id>`. -/
def toView (j : Job) : ProgressView := ⟨j.status, some j.progress, some j.filename, j.error⟩

/-- The default `{'status': 'not_found'}` body. -/
def notFoundView : ProgressView := ⟨"not_found", none, none, none⟩

/-- The `/progress/<download_id>` handler:
`download_progress.get(download_id, {'status': 'not_found'})`, serialized
with HTTP status 200.  A total function: it never raises. -/
def get_progress (reg : Registry) (id : String) : ProgressView × Nat :=
  (match regGet reg id with
   | some j => toView j
   | none => notFoundView, 200)

/-- One entry of `info['formats']` as consumed by `/get_video_info`:
`f.get('ext')` and `f.get('height')`, each possibly absent. -/
structure RawFormat where
  ext : Option String
  height : Option Nat
deriving DecidableEq

/-- One entry of the response's `formats` list:
`{'height': h, 'quality': f"{h}p"}`. -/
structure FormatEntry where
  height : Nat
  quality : String
deriving DecidableEq

/-- The format-collecting loop of `get_video_info`: keep descriptors with
`ext == 'mp4'` and truthy height (present and nonzero), first occurrence
of each height wins via the `seen_heights` set, label `f"{height}p"`. -/
def collectFormats : List RawFormat → List FormatEntry → List Nat → List FormatEntry
  | [], formats, _ => formats
  | f :: fs, formats, seen =>
    match f.height with
    | some h =>
      if f.ext = some "mp4" ∧ h ≠ 0 then
        if h ∈ seen then collectFormats fs formats seen
        else collectFormats fs (formats ++ [⟨h, natToString h ++ "p"⟩]) (h :: seen)
      else collectFormats fs formats seen
    | none => collectFormats fs formats seen

/-- `formats.sort(key=lambda x: x['height'], reverse=True)`: descending by
height. -/
def heightGe (a b : FormatEntry) : Prop := b.height ≤ a.height

instance : DecidableRel heightGe := fun a b => Nat.decLe b.height a.height

instance : IsTotal FormatEntry heightGe := ⟨fun a b => Nat.le_total b.height a.height⟩

instance : IsTrans FormatEntry heightGe :=
  ⟨fun _ _ _ h1 h2 => Nat.le_trans h2 h1⟩

/-- The format catalog computed by `/get_video_info` from the
collaborator's descriptor list: filter, dedupe, label, sort descending. -/
def get_video_formats (l : List RawFormat) : List FormatEntry :=
  List.insertionSort heightGe (collectFormats l [] [])

/-- Well-formedness of an event's percent string: if it parses at all it
denotes a finite value in [0, 100]. -/
def percentWf (e : Event) : Bool :=
  match e.percent_str with
  | some s =>
    (match parseFloat (stripPercent s) with
     | some (PyFloat.fin v) => decide (0 ≤ v) && decide (v ≤ 100)
     | some _ => false
     | none => true)
  | none => true

/-- Boolean well-formedness of one collaborator event, as hypothesised by
the amended progress-range claim: byte counts sit between 0 and the total
and any parsable percent string denotes a value in [0, 100]. -/
def wfEvent (e : Event) : Bool :=
  if e.status = "downloading" then
    match e.total_bytes with
    | some t =>
      if t ≠ 0 then
        decide (0 < t) &&
          (match e.downloaded_bytes with
           | some db => decide (0 ≤ db) && decide (db ≤ t)
           | none => true)
      else percentWf e
    | none => percentWf e
  else true

/-- Claim-side rendering of the Format Catalog Resolver's filter, following
the specification's words ("keeps exactly those descriptors whose container
format is the target container and whose height is present"): every
mp4 descriptor with a present height should contribute its height to the
catalog.  Stated separately from the source-derived `get_video_formats`
so the two can be compared. -/
def specKeepsAllPresentHeights (l : List RawFormat) : Prop :=
  ∀ f ∈ l, f.ext = some "mp4" → f.height.isSome →
    ∃ e ∈ get_video_formats l, some e.height = f.height

theorem regGet_regSet_self (reg : Registry) (id : String) (j : Job) :
    regGet (regSet reg id j) id = some j := by
  induction reg with
  | nil => simp [regSet, regGet]
  | cons p rest ih =>
    obtain ⟨k, v⟩ := p
    by_cases h : k = id
    · simp [regSet, h, regGet]
    · simp [regSet, h, regGet, ih]

theorem digitVal_digitChar : ∀ d : Nat, d < 10 → digitVal (Nat.digitChar d) = d := by
  decide

theorem digitsVal_concat (xs : List Char) (c : Char) :
    digitsVal (xs ++ [c]) = 10 * digitsVal xs + digitVal c := by
  simp [digitsVal, List.foldl_append]

theorem natDigitsAux_acc : ∀ (fuel n : Nat) (acc : List Char),
    natDigitsAux fuel n acc = natDigitsAux fuel n [] ++ acc := by
  intro fuel
  induction fuel with
  | zero => intro n acc; simp [natDigitsAux]
  | succ fuel ih =>
    intro n acc
    by_cases h : n / 10 = 0
    · simp [natDigitsAux, h]
    · simp only [natDigitsAux, h, if_false]
      rw [ih (n / 10) (Nat.digitChar (n % 10) :: acc),
        ih (n / 10) [Nat.digitChar (n % 10)]]
      simp

theorem natDigitsAux_val : ∀ (fuel n : Nat), n < 10 ^ fuel →
    digitsVal (natDigitsAux fuel n []) = n := by
  intro fuel
  induction fuel with
  | zero => intro n hn; interval_cases n; simp [natDigitsAux, digitsVal]
  | succ fuel ih =>
    intro n hn
    by_cases h : n / 10 = 0
    · have hlt : n < 10 := by
        rcases Nat.lt_or_ge n 10 with h' | h'
        · exact h'
        · exact absurd h (by
            have : 10 / 10 ≤ n / 10 := Nat.div_le_div_right h'
            simpa using Nat.lt_of_lt_of_le (by norm_num) this |>.ne')
      have : digitsVal [Nat.digitChar (n % 10)] = n % 10 := by
        have := digitVal_digitChar (n % 10) (Nat.mod_lt _ (by norm_num))
        simp [digitsVal, this]
      simp only [natDigitsAux, h, if_true]
      rw [this, Nat.mod_eq_of_lt hlt]
    · have hrest : n / 10 < 10 ^ fuel := by
        rw [Nat.div_lt_iff_lt_mul (by norm_num : 0 < 10)]
        calc n < 10 ^ (fuel + 1) := hn
        _ = 10 ^ fuel * 10 := by ring
      simp only [natDigitsAux, h, if_false]
      rw [natDigitsAux_acc, digitsVal_concat, ih _ hrest,
        digitVal_digitChar (n % 10) (Nat.mod_lt _ (by norm_num))]
      omega

theorem natToString_injective {m n : Nat} (h : natToString m = natToString n) :
    m = n := by
  have hm : m < 10 ^ (m + 1) :=
    Nat.lt_of_lt_of_le (Nat.lt_pow_self (by norm_num) m)
      (Nat.pow_le_pow_right (by norm_num) (Nat.le_succ m))
  have hn : n < 10 ^ (n + 1) :=
    Nat.lt_of_lt_of_le (Nat.lt_pow_self (by norm_num) n)
      (Nat.pow_le_pow_right (by norm_num) (Nat.le_succ n))
  have hdata : natDigitsAux (m + 1) m [] = natDigitsAux (n + 1) n [] :=
    congrArg String.data h
  calc m = digitsVal (natDigitsAux (m + 1) m []) := (natDigitsAux_val _ _ hm).symm
  _ = digitsVal (natDigitsAux (n + 1) n []) := by rw [hdata]
  _ = n := natDigitsAux_val _ _ hn

theorem roundHalfEven_intCast (n : ℤ) : roundHalfEven (n : ℚ) = n := by
  unfold roundHalfEven
  dsimp only
  rw [Int.floor_intCast, sub_self]
  norm_num

theorem roundHalfEven_nonneg {x : ℚ} (hx : 0 ≤ x) : 0 ≤ roundHalfEven x := by
  unfold roundHalfEven
  dsimp only
  have hf : 0 ≤ ⌊x⌋ := Int.floor_nonneg.mpr hx
  split
  · exact hf
  · split
    · omega
    · split
      · exact hf
      · omega

theorem roundHalfEven_le {x : ℚ} {N : ℤ} (hx : x ≤ (N : ℚ)) :
    roundHalfEven x ≤ N := by
  have hfN : ⌊x⌋ ≤ N := by
    have := Int.floor_le_floor hx
    simpa [Int.floor_intCast] using this
  have hsucc : ¬ (x - (⌊x⌋ : ℚ) < 1 / 2) → ⌊x⌋ + 1 ≤ N := by
    intro hr
    push_neg at hr
    have hxf : (⌊x⌋ : ℚ) + 1 / 2 ≤ x := by linarith
    have : (⌊x⌋ : ℚ) + 1 / 2 ≤ (N : ℚ) := le_trans hxf hx
    have hlt : (⌊x⌋ : ℚ) < (N : ℚ) := by linarith
    exact_mod_cast Int.add_one_le_iff.mpr (by exact_mod_cast hlt)
  unfold roundHalfEven
  dsimp only
  split
  · exact hfN
  · next hr =>
    split
    · exact hsucc hr
    · split
      · exact hfN
      · exact hsucc hr

theorem pyRound1_intCast (n : ℤ) : pyRound1 ((n : ℤ) : ℚ) = n := by
  unfold pyRound1
  have h10 : (10 : ℚ) * (n : ℚ) = ((10 * n : ℤ) : ℚ) := by push_cast; ring
  rw [h10, roundHalfEven_intCast]
  push_cast
  field_simp

theorem pyRound1_nonneg {x : ℚ} (hx : 0 ≤ x) : 0 ≤ pyRound1 x := by
  unfold pyRound1
  have h : 0 ≤ roundHalfEven (10 * x) := roundHalfEven_nonneg (by linarith)
  positivity

theorem pyRound1_le_100 {x : ℚ} (hx : x ≤ 100) : pyRound1 x ≤ 100 := by
  unfold pyRound1
  have h : roundHalfEven (10 * x) ≤ (1000 : ℤ) :=
    roundHalfEven_le (by push_cast; linarith)
  have h' : ((roundHalfEven (10 * x) : ℤ) : ℚ) ≤ 1000 := by exact_mod_cast h
  linarith

theorem ratio_bounds {db t : ℚ} (ht : 0 < t) (h0 : 0 ≤ db) (h1 : db ≤ t) :
    0 ≤ db / t * 100 ∧ db / t * 100 ≤ 100 := by
  constructor
  · positivity
  · have : db / t ≤ 1 := (div_le_one ht).mpr h1
    nlinarith [this]

theorem percentArm_bounds {e : Event} {j : Job} (hwf : percentWf e = true)
    (hj : progressInRange j.progress) :
    progressInRange (percentArm e j).progress := by
  unfold percentArm
  unfold percentWf at hwf
  cases hs : e.percent_str with
  | none => simp only [hs]; exact hj
  | some s =>
    cases hp : parseFloat (stripPercent s) with
    | none => simp only [hs, hp]; exact hj
    | some v =>
      cases v with
      | fin q =>
        simp only [hs, hp, Bool.and_eq_true, decide_eq_true_eq] at hwf
        simp only [hs, hp]
        exact hwf
      | inf => simp only [hs, hp] at hwf; exact absurd hwf (by decide)
      | ninf => simp only [hs, hp] at hwf; exact absurd hwf (by decide)
      | nan => simp only [hs, hp] at hwf; exact absurd hwf (by decide)

theorem progress_hook_bounds {e : Event} {j : Job} (hwf : wfEvent e = true)
    (hj : progressInRange j.progress) :
    progressInRange (progress_hook e j).fst.progress := by
  unfold progress_hook
  unfold wfEvent at hwf
  by_cases hd : e.status = "downloading"
  · rw [if_pos hd] at hwf ⊢
    cases ht : e.total_bytes with
    | none => simp only [ht] at hwf ⊢; exact percentArm_bounds hwf hj
    | some t =>
      by_cases htz : t ≠ 0
      · cases hdb : e.downloaded_bytes with
        | none => simp only [ht, hdb, if_pos htz]; exact hj
        | some db =>
          simp only [ht, hdb, if_pos htz, Bool.and_eq_true, decide_eq_true_eq] at hwf
          obtain ⟨htpos, hdb0, hdbt⟩ := hwf
          have hr := ratio_bounds htpos hdb0 hdbt
          simp only [ht, hdb, if_pos htz]
          exact ⟨pyRound1_nonneg hr.1, pyRound1_le_100 hr.2⟩
      · simp only [ht, if_neg htz] at hwf ⊢
        exact percentArm_bounds hwf hj
  · rw [if_neg hd]
    by_cases hf : e.status = "finished"
    · rw [if_pos hf]
      cases hfn : e.filename with
      | none => exact ⟨by norm_num, by norm_num⟩
      | some fn => exact ⟨by norm_num, by norm_num⟩
    · rw [if_neg hf]
      exact hj

theorem runEvents_fst_eq_trace_getLast (id : String) (es : List Event) :
    ∀ reg, (runEvents id reg es).fst = (runEventsTrace id reg es).getLastD reg := by
  induction es with
  | nil => intro reg; rfl
  | cons e es ih =>
    intro reg
    simp only [runEvents, runEventsTrace]
    cases hg : regGet reg id with
    | none => rfl
    | some j =>
      simp only []
      cases hx : (progress_hook e j).snd with
      | none =>
        simp only [hx]
        rw [ih, List.getLastD_cons]
      | some m =>
        simp only [hx]
        rfl

theorem regGet_runEvents_isSome (id : String) (es : List Event) :
    ∀ reg, (regGet reg id).isSome →
      (regGet (runEvents id reg es).fst id).isSome := by
  induction es with
  | nil => intro reg h; simpa [runEvents] using h
  | cons e es ih =>
    intro reg h
    simp only [runEvents]
    cases hg : regGet reg id with
    | none => simp [hg] at h
    | some j =>
      simp only []
      cases hx : (progress_hook e j).snd with
      | none =>
        exact ih _ (by rw [regGet_regSet_self]; rfl)
      | some m => simp [regGet_regSet_self]

theorem runEvents_append_none (id : String) (es es' : List Event) :
    ∀ reg, (runEvents id reg es).snd = none →
      runEvents id reg (es ++ es') = runEvents id (runEvents id reg es).fst es' := by
  induction es with
  | nil => intro reg _; simp [runEvents]
  | cons e es ih =>
    intro reg h
    simp only [runEvents, List.cons_append] at h ⊢
    cases hg : regGet reg id with
    | none => rw [hg] at h; simp at h
    | some j =>
      rw [hg] at h
      simp only [] at h ⊢
      cases hx : (progress_hook e j).snd with
      | none => simp only [hx] at h ⊢; exact ih _ h
      | some m => simp only [hx] at h; simp at h

theorem errorSet_fields (reg : Registry) (id m : String) :
    ∀ j, regGet (errorSet reg id m) id = some j →
      ∃ j0, regGet reg id = some j0 ∧ j.status = "error" ∧ j.error = some m ∧
        j.progress = j0.progress ∧ j.filename = j0.filename := by
  intro j hj
  unfold errorSet at hj
  cases hg : regGet reg id with
  | none =>
    rw [hg] at hj
    simp only [] at hj
    rw [hg] at hj
    simp at hj
  | some j0 =>
    rw [hg] at hj
    simp only [] at hj
    rw [regGet_regSet_self] at hj
    obtain rfl : ({ j0 with status := "error", error := some m } : Job) = j :=
      Option.some.inj hj
    exact ⟨j0, rfl, rfl, rfl, rfl, rfl⟩

theorem traceBounds (id : String) (es : List Event) :
    ∀ reg, es.all wfEvent = true →
      (∀ j, regGet reg id = some j → progressInRange j.progress) →
      ∀ r ∈ runEventsTrace id reg es, ∀ j, regGet r id = some j →
        progressInRange j.progress := by
  induction es with
  | nil => intro reg _ _ r hr; simp [runEventsTrace] at hr
  | cons e es ih =>
    intro reg hwf hP r hr j hj
    simp only [List.all_cons, Bool.and_eq_true] at hwf
    simp only [runEventsTrace] at hr
    cases hg : regGet reg id with
    | none => rw [hg] at hr; simp at hr
    | some j0 =>
      rw [hg] at hr
      simp only [] at hr
      have hb0 := hP j0 hg
      have hb1 := progress_hook_bounds hwf.1 hb0
      have hP1 : ∀ j', regGet (regSet reg id (progress_hook e j0).fst) id = some j' →
          progressInRange j'.progress := by
        intro j' hj'
        rw [regGet_regSet_self] at hj'
        cases hj'
        exact hb1
      cases hx : (progress_hook e j0).snd with
      | none =>
        rw [hx] at hr
        rcases List.mem_cons.mp hr with h | h
        · subst h; exact hP1 j hj
        · exact ih _ hwf.2 hP1 r h j hj
      | some m =>
        rw [hx] at hr
        simp at hr
        subst hr
        exact hP1 j hj

theorem collectFormats_mono : ∀ (fs : List RawFormat) (formats : List FormatEntry)
    (seen : List Nat) (e : FormatEntry), e ∈ formats → e ∈ collectFormats fs formats seen := by
  intro fs
  induction fs with
  | nil => intro formats seen e he; simpa [collectFormats] using he
  | cons f fs ih =>
    intro formats seen e he
    cases hh : f.height with
    | none => simp only [collectFormats, hh]; exact ih _ _ _ he
    | some h =>
      simp only [collectFormats, hh]
      by_cases hc : f.ext = some "mp4" ∧ h ≠ 0
      · rw [if_pos hc]
        by_cases hs : h ∈ seen
        · rw [if_pos hs]; exact ih _ _ _ he
        · rw [if_neg hs]; exact ih _ _ _ (List.mem_append_left _ he)
      · rw [if_neg hc]; exact ih _ _ _ he

theorem collectFormats_sound : ∀ (fs : List RawFormat) (formats : List FormatEntry)
    (seen : List Nat) (e : FormatEntry), e ∈ collectFormats fs formats seen →
    e ∈ formats ∨ ∃ f ∈ fs, ∃ h, f.ext = some "mp4" ∧ f.height = some h ∧ h ≠ 0 ∧
      e = ⟨h, natToString h ++ "p"⟩ := by
  intro fs
  induction fs with
  | nil => intro formats seen e he; left; simpa [collectFormats] using he
  | cons f fs ih =>
    intro formats seen e he
    have tail : ∀ formats' seen', e ∈ collectFormats fs formats' seen' → e ∈ formats' →
        True := fun _ _ _ _ => trivial
    have lift : (e ∈ formats ∨ ∃ f' ∈ fs, ∃ h, f'.ext = some "mp4" ∧ f'.height = some h ∧
        h ≠ 0 ∧ e = ⟨h, natToString h ++ "p"⟩) →
        e ∈ formats ∨ ∃ f' ∈ f :: fs, ∃ h, f'.ext = some "mp4" ∧ f'.height = some h ∧
          h ≠ 0 ∧ e = ⟨h, natToString h ++ "p"⟩ := by
      rintro (h1 | ⟨f', hf', hrest⟩)
      · exact Or.inl h1
      · exact Or.inr ⟨f', List.mem_cons_of_mem _ hf', hrest⟩
    cases hh : f.height with
    | none =>
      simp only [collectFormats, hh] at he
      exact lift (ih _ _ _ he)
    | some h =>
      simp only [collectFormats, hh] at he
      by_cases hc : f.ext = some "mp4" ∧ h ≠ 0
      · rw [if_pos hc] at he
        by_cases hs : h ∈ seen
        · rw [if_pos hs] at he; exact lift (ih _ _ _ he)
        · rw [if_neg hs] at he
          rcases ih _ _ _ he with h1 | ⟨f', hf', hrest⟩
          · rcases List.mem_append.mp h1 with h2 | h2
            · exact Or.inl h2
            · right
              refine ⟨f, List.mem_cons_self _ _, h, hc.1, hh, hc.2, ?_⟩
              simpa using h2
          · exact Or.inr ⟨f', List.mem_cons_of_mem _ hf', hrest⟩
      · rw [if_neg hc] at he; exact lift (ih _ _ _ he)

theorem collectFormats_complete : ∀ (fs : List RawFormat) (formats : List FormatEntry)
    (seen : List Nat), (∀ h' ∈ seen, ∃ e ∈ formats, e.height = h') →
    ∀ f ∈ fs, ∀ h, f.ext = some "mp4" → f.height = some h → h ≠ 0 →
      ∃ e ∈ collectFormats fs formats seen, e.height = h := by
  intro fs
  induction fs with
  | nil => intro _ _ _ f hf; simp at hf
  | cons f0 fs ih =>
    intro formats seen hinv f hf h hext hht hnz
    rcases List.mem_cons.mp hf with rfl | hf'
    · -- the descriptor at the head qualifies
      simp only [collectFormats, hht, if_pos (And.intro hext hnz)]
      by_cases hs : h ∈ seen
      · rw [if_pos hs]
        obtain ⟨e, he, heq⟩ := hinv h hs
        exact ⟨e, collectFormats_mono _ _ _ _ he, heq⟩
      · rw [if_neg hs]
        refine ⟨⟨h, natToString h ++ "p"⟩, ?_, rfl⟩
        exact collectFormats_mono _ _ _ _ (by simp)
    · -- the descriptor sits in the tail; step over the head
      cases hh0 : f0.height with
      | none =>
        simp only [collectFormats, hh0]
        exact ih _ _ hinv f hf' h hext hht hnz
      | some h0 =>
        simp only [collectFormats, hh0]
        by_cases hc : f0.ext = some "mp4" ∧ h0 ≠ 0
        · rw [if_pos hc]
          by_cases hs : h0 ∈ seen
          · rw [if_pos hs]; exact ih _ _ hinv f hf' h hext hht hnz
          · rw [if_neg hs]
            refine ih _ _ ?_ f hf' h hext hht hnz
            intro h' hh'
            rcases List.mem_cons.mp hh' with rfl | hh''
            · exact ⟨⟨h', natToString h' ++ "p"⟩, by simp, rfl⟩
            · obtain ⟨e, he, heq⟩ := hinv h' hh''
              exact ⟨e, List.mem_append_left _ he, heq⟩
        · rw [if_neg hc]; exact ih _ _ hinv f hf' h hext hht hnz

theorem collectFormats_nodup : ∀ (fs : List RawFormat) (formats : List FormatEntry)
    (seen : List Nat), (∀ e ∈ formats, e.height ∈ seen) →
    (formats.map FormatEntry.height).Nodup →
    ((collectFormats fs formats seen).map FormatEntry.height).Nodup := by
  intro fs
  induction fs with
  | nil => intro _ _ _ hnd; simpa [collectFormats] using hnd
  | cons f fs ih =>
    intro formats seen hsub hnd
    cases hh : f.height with
    | none => simp only [collectFormats, hh]; exact ih _ _ hsub hnd
    | some h =>
      simp only [collectFormats, hh]
      by_cases hc : f.ext = some "mp4" ∧ h ≠ 0
      · rw [if_pos hc]
        by_cases hs : h ∈ seen
        · rw [if_pos hs]; exact ih _ _ hsub hnd
        · rw [if_neg hs]
          refine ih _ _ ?_ ?_
          · intro e he
            rcases List.mem_append.mp he with h1 | h1
            · exact List.mem_cons_of_mem _ (hsub e h1)
            · simp at h1; subst h1; simp
          · have hnot : h ∉ formats.map FormatEntry.height := by
              intro hmem
              obtain ⟨e, he, heq⟩ := List.mem_map.mp hmem
              exact hs (heq ▸ hsub e he)
            simp [List.nodup_append, hnd, hnot]
      · rw [if_neg hc]; exact ih _ _ hsub hnd

theorem errorSet_get {reg : Registry} {id : String} {j0 : Job} (m : String)
    (h : regGet reg id = some j0) :
    regGet (errorSet reg id m) id =
      some { j0 with status := "error", error := some m } := by
  unfold errorSet
  rw [h]
  simp only []
  exact regGet_regSet_self _ _ _

theorem download_response_inr {req : DownloadRequest} {t : Nat} {reg : Registry}
    {id : String} (h : (download req t reg).response = Sum.inr id) :
    id = natToString t := by
  unfold download at h
  cases hu : req.url with
  | none => rw [hu] at h; simp at h
  | some u =>
    rw [hu] at h
    simp only [] at h
    by_cases he : u = ""
    · rw [if_pos he] at h; simp at h
    · rw [if_neg he] at h
      exact (Sum.inr.inj h).symm

/-- Claim C9: for every identifier not present in the job registry, a GET of
`/progress/{id}` returns exactly the body `{status: "not_found"}` (no other
keys) with HTTP status 200; `get_progress` is a total function of the model,
so it never raises. -/
theorem claim_C9 (reg : Registry) (id : String) (h : regGet reg id = none) :
    get_progress reg id = (notFoundView, 200) := by
  unfold get_progress
  rw [h]

theorem claim_C9_witness :
    regGet [] "missing" = none ∧ get_progress [] "missing" = (notFoundView, 200) :=
  ⟨rfl, claim_C9 [] "missing" rfl⟩

/-- Claim C6: the Quality Selector maps `"best"` to the container-restricted
best expression, `"worst"` to the container-restricted worst expression, and
any other token `h` verbatim and unvalidated into
`best[height<=h][ext=mp4]`; and a `/download` request without a `quality`
field spawns the worker with quality `"best"`. -/
theorem claim_C6 :
    format_selector "best" = "best[ext=mp4]" ∧
    format_selector "worst" = "worst[ext=mp4]" ∧
    (∀ q : String, q ≠ "best" → q ≠ "worst" →
      format_selector q = "best[height<=" ++ q ++ "][ext=mp4]") ∧
    (∀ (url : String) (now_ms : Nat) (reg : Registry), url ≠ "" →
      (download ⟨some url, none⟩ now_ms reg).spawned =
        some (url, "best", natToString now_ms)) := by
  refine ⟨rfl, rfl, ?_, ?_⟩
  · intro q h1 h2
    unfold format_selector
    rw [if_neg h1, if_neg h2]
  · intro url now_ms reg hu
    unfold download
    simp only []
    rw [if_neg hu]
    rfl

theorem claim_C6_witness :
    format_selector "720" = "best[height<=720][ext=mp4]" ∧
    (download ⟨some "http://u", none⟩ 1000 []).spawned =
      some ("http://u", "best", "1000") :=
  ⟨claim_C6.2.2.1 "720" (by decide) (by decide),
   (claim_C6.2.2.2 "http://u" 1000 [] (by decide)).trans rfl⟩

/-- Claim C8: whatever exception ends the worker's download procedure —
one raised by a hook on a malformed event or one raised by the collaborator
itself, with any message — the worker records `status='error'` and the
exception's message text on the job, and (the model of) `download_video` is
a total function: no exception propagates to any caller. -/
theorem claim_C8 (url quality id : String) (run : WorkerRun) (reg : Registry)
    (m : String)
    (h : (runEvents id (regSet reg id workerInit) run.events).snd = some m ∨
      ((runEvents id (regSet reg id workerInit) run.events).snd = none ∧
        run.raised = some m)) :
    ∃ j, regGet (download_video url quality id run reg) id = some j ∧
      j.status = "error" ∧ j.error = some m := by
  have hsome : (regGet (runEvents id (regSet reg id workerInit) run.events).fst id).isSome :=
    regGet_runEvents_isSome id run.events _ (by rw [regGet_regSet_self]; rfl)
  obtain ⟨j0, hj0⟩ := Option.isSome_iff_exists.mp hsome
  unfold download_video
  simp only []
  rcases h with hx | ⟨hx, hr⟩
  · rw [hx]
    exact ⟨_, errorSet_get m hj0, rfl, rfl⟩
  · rw [hx, hr]
    exact ⟨_, errorSet_get m hj0, rfl, rfl⟩

theorem claim_C8_witness :
    (regGet (download_video "u" "best" "1" ⟨[], some "boom"⟩ []) "1").isSome := by
  obtain ⟨j, hj, -, -⟩ :=
    claim_C8 "u" "best" "1" ⟨[], some "boom"⟩ [] "boom" (Or.inr ⟨rfl, rfl⟩)
  rw [hj]
  rfl

/-- Claim C10: when the worker's `except` branch records an error after the
events were processed without a hook exception, only `status` and `error`
change: the job's `progress` and `filename` keep the value last written by
the event loop. -/
theorem claim_C10 (url quality id : String) (run : WorkerRun) (reg : Registry)
    (m : String) (j : Job)
    (hev : (runEvents id (regSet reg id workerInit) run.events).snd = none)
    (hraised : run.raised = some m)
    (hj : regGet (runEvents id (regSet reg id workerInit) run.events).fst id = some j) :
    regGet (download_video url quality id run reg) id =
      some ⟨"error", j.progress, j.filename, some m⟩ := by
  unfold download_video
  simp only []
  rw [hev, hraised]
  exact errorSet_get m hj

theorem claim_C10_witness :
    regGet (download_video "u" "best" "1" ⟨[], some "boom"⟩ []) "1" =
      some ⟨"error", workerInit.progress, workerInit.filename, some "boom"⟩ :=
  claim_C10 "u" "best" "1" ⟨[], some "boom"⟩ [] "boom" workerInit rfl rfl rfl

/-- Claim C1, as stated, is false on the code: the `/download` handler never
touches the registry (the record is created inside the background thread,
and with `status='downloading'`, never `'pending'`).  At the concrete
request below the handler succeeds with id `"1000"` yet the registry it
leaves behind is still empty, so an immediately following
`/progress/1000` — before the detached worker has run — answers
`{status: "not_found"}`; and the record the worker does install first has
status `"downloading"`, not `"pending"`. -/
theorem claim_C1_cex :
    (download ⟨some "http://u", some "best"⟩ 1000 []).response = Sum.inr "1000" ∧
    (download ⟨some "http://u", some "best"⟩ 1000 []).registry = [] ∧
    get_progress [] "1000" = (notFoundView, 200) ∧
    notFoundView.status = "not_found" ∧
    regGet (regSet [] "1000" workerInit) "1000" = some workerInit ∧
    workerInit.status = "downloading" :=
  ⟨rfl, rfl, rfl, rfl, rfl, rfl⟩

/-- Claim C1 amended: on a valid request, `/download` returns the id derived
from the request's millisecond timestamp and leaves the registry unchanged —
the job record is *not* created synchronously; until the detached worker
runs, polling the returned id yields `not_found`; the worker's first action
installs the record with `status="downloading"` (there is no `pending`
state) and `progress=0`. -/
theorem claim_C1 (req : DownloadRequest) (now_ms : Nat) (reg : Registry)
    (u : String) (hu : req.url = some u) (hne : u ≠ "") :
    (download req now_ms reg).response = Sum.inr (natToString now_ms) ∧
    (download req now_ms reg).registry = reg ∧
    (regGet reg (natToString now_ms) = none →
      get_progress reg (natToString now_ms) = (notFoundView, 200)) ∧
    regGet (regSet reg (natToString now_ms) workerInit) (natToString now_ms) =
      some workerInit ∧
    workerInit.status = "downloading" ∧ workerInit.progress = PyFloat.fin 0 := by
  unfold download
  rw [hu]
  simp only []
  rw [if_neg hne]
  refine ⟨rfl, rfl, ?_, regGet_regSet_self _ _ _, rfl, rfl⟩
  intro h
  unfold get_progress
  rw [h]

theorem claim_C1_witness :
    (download ⟨some "http://u", none⟩ 1000 []).response = Sum.inr (natToString 1000) ∧
    (download ⟨some "http://u", none⟩ 1000 []).registry = [] ∧
    get_progress [] (natToString 1000) = (notFoundView, 200) := by
  obtain ⟨h1, h2, h3, -, -, -⟩ :=
    claim_C1 ⟨some "http://u", none⟩ 1000 [] "http://u" rfl (by decide)
  exact ⟨h1, h2, h3 rfl⟩

/-- Claim C2, as stated, is false on the code: the download id is
`str(int(time.time() * 1000))`, a function of the wall clock alone, so two
successful `/download` requests served within the same millisecond receive
the same id.  Below, two distinct requests at timestamp 1000 both obtain
download id `"1000"`. -/
theorem claim_C2_cex :
    (download ⟨some "http://a", none⟩ 1000 []).response = Sum.inr "1000" ∧
    (download ⟨some "http://b", none⟩ 1000 []).response = Sum.inr "1000" :=
  ⟨rfl, rfl⟩

/-- Claim C2 amended: two successful `/download` responses carry distinct
download ids provided the two requests are served at distinct millisecond
timestamps (ids collide exactly when the truncated millisecond clock
coincides). -/
theorem claim_C2 (req1 req2 : DownloadRequest) (t1 t2 : Nat)
    (reg1 reg2 : Registry) (id1 id2 : String)
    (h1 : (download req1 t1 reg1).response = Sum.inr id1)
    (h2 : (download req2 t2 reg2).response = Sum.inr id2)
    (hne : t1 ≠ t2) : id1 ≠ id2 := by
  intro heq
  apply hne
  apply natToString_injective
  rw [← download_response_inr h1, ← download_response_inr h2, heq]

theorem claim_C2_witness : ("1000" : String) ≠ "1001" :=
  claim_C2 ⟨some "http://a", none⟩ ⟨some "http://b", none⟩ 1000 1001 [] []
    "1000" "1001" rfl rfl (by decide)

theorem getLastD_mem {α : Type} (l : List α) : ∀ a : α, l.getLastD a ∈ a :: l := by
  induction l with
  | nil => intro a; simp [List.getLastD]
  | cons b l ih =>
    intro a
    rw [List.getLastD_cons]
    exact List.mem_cons_of_mem _ (ih b)

theorem download_video_bounds (url quality id : String) (run : WorkerRun)
    (reg : Registry) (hwf : run.events.all wfEvent = true) :
    ∀ j, regGet (download_video url quality id run reg) id = some j →
      progressInRange j.progress := by
  have hP1 : ∀ j', regGet (regSet reg id workerInit) id = some j' →
      progressInRange j'.progress := by
    intro j' hj'
    rw [regGet_regSet_self] at hj'
    cases hj'
    norm_num [workerInit, progressInRange]
  have hPfst : ∀ j', regGet (runEvents id (regSet reg id workerInit) run.events).fst id =
      some j' → progressInRange j'.progress := by
    rw [runEvents_fst_eq_trace_getLast]
    intro j' hj'
    rcases List.mem_cons.mp
        (getLastD_mem (runEventsTrace id (regSet reg id workerInit) run.events)
          (regSet reg id workerInit)) with hmem | hmem
    · rw [hmem] at hj'; exact hP1 j' hj'
    · exact traceBounds id run.events _ hwf hP1 _ hmem j' hj'
  intro j hj
  unfold download_video at hj
  simp only [] at hj
  cases hx : (runEvents id (regSet reg id workerInit) run.events).snd with
  | some m =>
    rw [hx] at hj
    obtain ⟨j0, hg, _, _, hprog, _⟩ := errorSet_fields _ _ _ j hj
    have := hPfst j0 hg
    rw [hprog]
    exact this
  | none =>
    rw [hx] at hj
    cases hr : run.raised with
    | some m =>
      rw [hr] at hj
      obtain ⟨j0, hg, _, _, hprog, _⟩ := errorSet_fields _ _ _ j hj
      have := hPfst j0 hg
      rw [hprog]
      exact this
    | none =>
      rw [hr] at hj
      exact hPfst j hj

/-- Claim C3, as stated over every sequence of collaborator progress events,
is false on the code: the percent arm stores whatever `float` returns,
without clamping.  The typical whitespace-padded yt-dlp percent string
`" 200%"` is stripped to `" 200"`, which `float` happily converts, driving
the job's `progress` to 200, outside [0, 100].  (A byte-ratio event with
`downloaded_bytes` exceeding `total_bytes` overruns the bound the same
way.) -/
theorem claim_C3_cex :
    regGet (download_video "u" "best" "1"
      ⟨[⟨"downloading", none, none, some " 200%", none⟩], none⟩ []) "1" =
      some ⟨"downloading", PyFloat.fin 200, "", none⟩ ∧
    ¬ progressInRange (PyFloat.fin 200) := by
  refine ⟨rfl, ?_⟩
  norm_num [progressInRange]

/-- Claim C3 amended: the progress of a job is a finite value within
[0, 100] in every poller-observable snapshot — after creation, after each
delivered event and after the worker finishes — provided every collaborator
event is well formed: reported byte counts lie between 0 and the (positive)
reported total, and any percent string that `float` accepts denotes a
finite value in [0, 100].  The code itself enforces no clamping. -/
theorem claim_C3 (url quality id : String) (run : WorkerRun) (reg : Registry)
    (hwf : run.events.all wfEvent = true) :
    ∀ r ∈ workerStates url quality id run reg, ∀ j, regGet r id = some j →
      progressInRange j.progress := by
  intro r hr j hj
  have hP1 : ∀ j', regGet (regSet reg id workerInit) id = some j' →
      progressInRange j'.progress := by
    intro j' hj'
    rw [regGet_regSet_self] at hj'
    cases hj'
    norm_num [workerInit, progressInRange]
  unfold workerStates at hr
  simp only [List.mem_append, List.mem_cons, List.mem_singleton,
    List.not_mem_nil, or_false] at hr
  rcases hr with (rfl | htr) | rfl
  · exact hP1 j hj
  · exact traceBounds id run.events _ hwf hP1 r htr j hj
  · exact download_video_bounds url quality id run reg hwf j hj

theorem claim_C3_witness : progressInRange workerInit.progress :=
  claim_C3 "u" "best" "1" ⟨[], none⟩ [] rfl [("1", workerInit)]
    (List.mem_cons_self _ _) workerInit rfl

/-- Claim C4, as stated, is false on the code: the byte-ratio branch is
selected on a truthy `total_bytes` alone, not on the presence of both
fields.  The event below carries no cumulative byte count but a truthy
total and a perfectly parsable percent string `"50%"`; the claim says the
string is parsed (progress 50, no failure), yet the code evaluates
`d['downloaded_bytes']`, raises `KeyError`, and the worker marks the job
`status='error'`. -/
theorem claim_C4_cex :
    regGet (download_video "u" "best" "1"
      ⟨[⟨"downloading", none, some 100, some "50%", none⟩], none⟩ []) "1" =
      some ⟨"error", PyFloat.fin 0, "", some "'downloaded_bytes'"⟩ := rfl

/-- Claim C4 amended: on a `downloading` event the hook branches on the
truthiness of `total_bytes` alone: with a truthy total and a byte count it
stores the ratio rounded to one decimal; with a truthy total but no byte
count it raises (which errors the job); only with an absent or zero total
does it consult `_percent_str`, storing whatever value `float` returns on
success (finite or not) and silently skipping the update — no mutation, no
exception, hence no `status='error'` — exactly when `float` raises
`ValueError`. -/
theorem claim_C4 (e : Event) (j : Job) (hd : e.status = "downloading") :
    (∀ t db, e.total_bytes = some t → t ≠ 0 → e.downloaded_bytes = some db →
      progress_hook e j =
        ({ j with progress := PyFloat.fin (pyRound1 (db / t * 100)) }, none)) ∧
    (∀ t, e.total_bytes = some t → t ≠ 0 → e.downloaded_bytes = none →
      progress_hook e j = (j, some "'downloaded_bytes'")) ∧
    ((e.total_bytes = none ∨ e.total_bytes = some 0) → ∀ s, e.percent_str = some s →
      (∀ v, parseFloat (stripPercent s) = some v →
        progress_hook e j = ({ j with progress := v }, none)) ∧
      (parseFloat (stripPercent s) = none → progress_hook e j = (j, none))) := by
  refine ⟨?_, ?_, ?_⟩
  · intro t db ht htz hdb
    simp [progress_hook, hd, ht, hdb, htz]
  · intro t ht htz hdb
    simp [progress_hook, hd, ht, hdb, htz]
  · intro ht s hs
    constructor
    · intro v hv
      rcases ht with ht | ht <;>
        simp [progress_hook, hd, ht, percentArm, hs, hv]
    · intro hv
      rcases ht with ht | ht <;>
        simp [progress_hook, hd, ht, percentArm, hs, hv]

theorem claim_C4_witness :
    progress_hook ⟨"downloading", some 50, some 100, none, none⟩ workerInit =
      ({ workerInit with progress := PyFloat.fin (pyRound1 ((50 : ℚ) / 100 * 100)) },
        none) :=
  (claim_C4 ⟨"downloading", some 50, some 100, none, none⟩ workerInit rfl).1
    100 50 rfl (by norm_num) rfl

/-- Claim C7, as stated, is false on the code: the hook keeps processing
collaborator events after the `finished` transition.  With two `finished`
events (filenames `a.mp4` then `b.mp4`) in one run, the snapshot right
after the first transition holds filename `"a.mp4"`, yet the final state of
the same run holds `"b.mp4"`: a later event mutated the filename after the
job had reached `completed`. -/
theorem claim_C7_cex :
    regGet ((workerStates "u" "best" "1"
      ⟨[⟨"finished", none, none, none, some "a.mp4"⟩,
        ⟨"finished", none, none, none, some "b.mp4"⟩], none⟩ []).getD 1 []) "1" =
      some ⟨"completed", PyFloat.fin 100, "a.mp4", none⟩ ∧
    regGet (download_video "u" "best" "1"
      ⟨[⟨"finished", none, none, none, some "a.mp4"⟩,
        ⟨"finished", none, none, none, some "b.mp4"⟩], none⟩ []) "1" =
      some ⟨"completed", PyFloat.fin 100, "b.mp4", none⟩ ∧
    ("a.mp4" : String) ≠ "b.mp4" :=
  ⟨rfl, rfl, by decide⟩

/-- Claim C7 amended: when the `finished` event is the last event the
collaborator delivers (and it raises nothing afterwards), the filename is
set at that transition to the base name of the reported path, together
with `status="completed"` and `progress=100`, and every subsequent
`/progress` read returns that same snapshot — the poller itself never
mutates the record.  (Only further collaborator events or a late
exception, as in the counterexample, can mutate it again.) -/
theorem claim_C7 (url quality id : String) (reg : Registry) (es : List Event)
    (e : Event) (fn : String) (run : WorkerRun)
    (hrun : run = ⟨es ++ [e], none⟩)
    (hfin : e.status = "finished") (hfn : e.filename = some fn)
    (hok : (runEvents id (regSet reg id workerInit) es).snd = none) :
    ∃ j, regGet (download_video url quality id run reg) id = some j ∧
      j.status = "completed" ∧ j.progress = PyFloat.fin 100 ∧
      j.filename = basename fn ∧
      get_progress (download_video url quality id run reg) id = (toView j, 200) := by
  subst hrun
  obtain ⟨j0, hj0⟩ := Option.isSome_iff_exists.mp
    (regGet_runEvents_isSome id es (regSet reg id workerInit)
      (by rw [regGet_regSet_self]; rfl))
  have hne' : ¬ (e.status = "downloading") := by rw [hfin]; decide
  have hstep : progress_hook e j0 =
      ({ j0 with status := "completed", progress := PyFloat.fin 100, filename := basename fn },
        none) := by
    unfold progress_hook
    rw [if_neg hne', if_pos hfin, hfn]
  have hone : runEvents id (runEvents id (regSet reg id workerInit) es).fst [e] =
      (regSet (runEvents id (regSet reg id workerInit) es).fst id
        { j0 with status := "completed", progress := PyFloat.fin 100, filename := basename fn },
        none) := by
    simp only [runEvents, hj0, hstep]
  unfold download_video
  simp only []
  rw [runEvents_append_none id es [e] _ hok, hone]
  simp only []
  refine ⟨_, regGet_regSet_self _ _ _, rfl, rfl, rfl, ?_⟩
  unfold get_progress
  rw [regGet_regSet_self]

theorem claim_C7_witness :
    (get_progress (download_video "u" "best" "1"
      ⟨[⟨"finished", none, none, none, some "dir/v.mp4"⟩], none⟩ []) "1").fst.status =
      "completed" := by
  obtain ⟨j, -, hst, -, -, hview⟩ := claim_C7 "u" "best" "1" [] []
    ⟨"finished", none, none, none, some "dir/v.mp4"⟩ "dir/v.mp4"
    ⟨[⟨"finished", none, none, none, some "dir/v.mp4"⟩], none⟩ rfl rfl rfl rfl
  rw [hview]
  exact hst

/-- Claim C5, as stated, is false on the code at one boundary point: the
filter keeps descriptors whose height is *truthy* (`f.get('height')`), not
merely present.  A descriptor with container `mp4` and height 0 — present
but falsy — is dropped, while the claim's "whose height is present" demands
an entry for it. -/
theorem claim_C5_cex : ¬ specKeepsAllPresentHeights [⟨some "mp4", some 0⟩] := by
  intro h
  obtain ⟨e, he, -⟩ := h ⟨some "mp4", some 0⟩ (List.mem_cons_self _ _) rfl rfl
  have : get_video_formats [⟨some "mp4", some 0⟩] = [] := rfl
  rw [this] at he
  exact absurd he (List.not_mem_nil e)

/-- Claim C5 amended: the Format Catalog Resolver keeps exactly the
descriptors whose container is `mp4` and whose height is present *and
nonzero* (Python truthiness), labels each entry `"<height>p"`, and returns
them in strictly descending height order (strictness also expresses the
deduplication by height; which duplicate "wins" is unobservable, as an
entry is determined by its height); on heights `[720, 1080, 720, 480]` it
returns `[1080p, 720p, 480p]`. -/
theorem claim_C5 :
    (∀ l : List RawFormat,
      (∀ e ∈ get_video_formats l,
        (∃ f ∈ l, f.ext = some "mp4" ∧ f.height = some e.height) ∧ e.height ≠ 0 ∧
          e.quality = natToString e.height ++ "p") ∧
      (∀ f ∈ l, ∀ h, f.ext = some "mp4" → f.height = some h → h ≠ 0 →
        ∃ e ∈ get_video_formats l, e.height = h) ∧
      (get_video_formats l).Pairwise (fun a b => b.height < a.height)) ∧
    get_video_formats [⟨some "mp4", some 720⟩, ⟨some "mp4", some 1080⟩,
      ⟨some "mp4", some 720⟩, ⟨some "mp4", some 480⟩] =
      [⟨1080, "1080p"⟩, ⟨720, "720p"⟩, ⟨480, "480p"⟩] := by
  refine ⟨?_, rfl⟩
  intro l
  have hperm := List.perm_insertionSort heightGe (collectFormats l [] [])
  refine ⟨?_, ?_, ?_⟩
  · intro e he
    have he' : e ∈ collectFormats l [] [] := hperm.mem_iff.mp he
    rcases collectFormats_sound l [] [] e he' with h1 | ⟨f, hf, h, hext, hht, hnz, rfl⟩
    · exact absurd h1 (List.not_mem_nil e)
    · exact ⟨⟨f, hf, hext, hht⟩, hnz, rfl⟩
  · intro f hf h hext hht hnz
    obtain ⟨e, he, heq⟩ := collectFormats_complete l [] [] (by simp) f hf h hext hht hnz
    exact ⟨e, hperm.mem_iff.mpr he, heq⟩
  · have hsorted : List.Pairwise heightGe (get_video_formats l) :=
      List.sorted_insertionSort heightGe (collectFormats l [] [])
    have hnd : ((get_video_formats l).map FormatEntry.height).Nodup := by
      have h1 : ((collectFormats l [] []).map FormatEntry.height).Nodup :=
        collectFormats_nodup l [] [] (by simp) (by simp)
      exact ((hperm.map FormatEntry.height).nodup_iff).mpr h1
    have hne : (get_video_formats l).Pairwise (fun a b => a.height ≠ b.height) :=
      List.pairwise_map.mp hnd
    exact (hsorted.and hne).imp (fun hab => lt_of_le_of_ne hab.1 (Ne.symm hab.2))

theorem claim_C5_witness :
    720 ∈ (get_video_formats [⟨some "mp4", some 720⟩]).map FormatEntry.height := by
  obtain ⟨e, he, hh⟩ := (claim_C5.1 [⟨some "mp4", some 720⟩]).2.1
    ⟨some "mp4", some 720⟩ (List.mem_cons_self _ _) 720 rfl rfl (by decide)
  exact List.mem_map.mpr ⟨e, he, hh⟩
